import Mathlib

/-
  Verification development for openmlpimp/plot/kde.py: the KDE plotting
  script.  Python strings are modelled as lists of characters, arff files
  as attribute lists plus row-major data, matplotlib figures as symbolic
  records of the drawing commands the script issues, and floats as
  rationals.  Fallible operations (out-of-range list indexing, which
  raises IndexError in Python) are modelled with Option, where none is
  an uncaught exception.
-/

set_option maxHeartbeats 1000000

abbrev Name := List Char

/-- The reserved attribute name start "parameter_" from obtain_sampled_parameters. -/
def paramPre : Name := "parameter_".toList

/-- The separator "__" used by attribute_name.split in obtain_sampled_parameters. -/
def sepTok : Name := "__".toList

/-- The canonical strategy label for the prior samples in the entry point. -/
def gaussianKdeName : Name := "gaussian_kde".toList

/-- Embeds Python str.split on the two-character separator "__": a
leftmost, non-overlapping scan.  Structural recursion so that it
evaluates by rfl. -/
def splitDunder : List Char → List (List Char)
  | [] => [[]]
  | c :: rest =>
    match rest with
    | [] => [[c]]
    | c2 :: r2 =>
      if c = '_' ∧ c2 = '_' then
        [] :: splitDunder r2
      else
        match splitDunder (c2 :: r2) with
        | [] => [[c]]
        | hd :: t => (c :: hd) :: t

/-- Embeds attribute_name.split('__')[-1]: the last piece of the split.
splitDunder never returns an empty list, so the default is never used. -/
def canonicalName (s : Name) : Name :=
  (splitDunder s).getLastD s

/-! ### obtain_sampled_parameters -/

/-- One parsed arff file: the attribute names (in declaration order) and
the data rows.  The glob over the directory is modelled by the list of
files it matched; an empty match is the empty list. -/
structure ArffFile (α : Type) where
  attributes : List Name
  data : List (List α)

/-- Embeds values[k].extend(vs) on a collections.defaultdict(list): the
mapping is total, missing keys read as []. -/
def extendKey {α : Type} (m : Name → List α) (k : Name) (vs : List α) :
    Name → List α :=
  fun q => if q = k then m q ++ vs else m q

/-- Embeds the inner loop of obtain_sampled_parameters over one file:
for each attribute index, if the name starts with "parameter_", extend
the entry at its canonical name with that attribute's whole column
(the row values at that index, in row order). -/
def processFile {α : Type} [Inhabited α] (f : ArffFile α) (m : Name → List α) :
    Name → List α :=
  f.attributes.enum.foldl
    (fun acc p =>
      if paramPre.isPrefixOf p.2 then
        extendKey acc (canonicalName p.2)
          (f.data.map (fun row => row.getD p.1 default))
      else acc) m

/-- Embeds obtain_sampled_parameters: fold the per-file accumulation over
all files matched by the glob, starting from the empty defaultdict. -/
def obtain_sampled_parameters {α : Type} [Inhabited α]
    (files : List (ArffFile α)) : Name → List α :=
  files.foldl (fun m f => processFile f m) (fun _ => [])

/-- The values one file contributes to key k: the columns of its
matching attributes, in attribute order, each column in row order. -/
def fileColumns {α : Type} [Inhabited α] (f : ArffFile α) (k : Name) : List α :=
  (f.attributes.enum.filterMap
    (fun p =>
      if paramPre.isPrefixOf p.2 ∧ canonicalName p.2 = k then
        some (f.data.map (fun row => row.getD p.1 default))
      else none)).flatten

/-! ### plot_categorical: the X_prime frequency mapping -/

/-- One iteration of the X_prime loop in plot_categorical: if the value
has not been seen, insert it with weight 0, then add 1.0/len(X); n is
len(X).  X_prime is an OrderedDict, modelled as an association list in
insertion order with unique keys. -/
def freqStep {α : Type} [DecidableEq α] (n : ℕ) (m : List (α × ℚ)) (v : α) :
    List (α × ℚ) :=
  if m.any (fun p => decide (p.1 = v)) then
    m.map (fun p => if p.1 = v then (p.1, p.2 + 1 / (n : ℚ)) else p)
  else
    m ++ [(v, 0 + 1 / (n : ℚ))]

/-- The X_prime ordered frequency mapping built by plot_categorical. -/
def freqMap {α : Type} [DecidableEq α] (X : List α) : List (α × ℚ) :=
  X.foldl (freqStep X.length) []

/-- The distinct values of a list, keeping the first occurrence of each,
in first-seen order. -/
def firstSeen {α : Type} [DecidableEq α] : List α → List α
  | [] => []
  | x :: xs => x :: (firstSeen xs).filter (fun y => decide (y ≠ x))

/-- What the spec says the frequency mapping is: the distinct values in
first-seen order, each paired with its occurrence count over the length. -/
def freqSpec {α : Type} [DecidableEq α] (X : List α) : List (α × ℚ) :=
  (firstSeen X).map (fun a => (a, (X.count a : ℚ) / (X.length : ℚ)))

/-! ### plot_numeric -/

/-- The numeric hyperparameter fields plot_numeric reads: name, lower
and upper bounds, and the log-scale flag. -/
structure NumericalHyperparameter where
  name : Name
  lower : ℚ
  upper : ℚ
  log : Bool
deriving DecidableEq

/-- The fixed palette lines = ['r', 'b', 'g'] in plot_numeric. -/
def lineColors : List Char := ['r', 'b', 'g']

/-- Embeds np.linspace(a, b, num): num evenly spaced points from a to b,
endpoints included. -/
def linspace (a b : ℚ) (num : ℕ) : List ℚ :=
  (List.range num).map (fun (i : ℕ) => a + (b - a) * (i : ℚ) / ((num : ℚ) - 1))

/-- The min and max computed by plot_numeric with factor = 1.0:
min = np.power(lower, 1.0) and max = np.power(upper, 1.0), modelled as
first powers, then the safeguard: if max < upper, max = upper * 1.0. -/
def plotBounds (hp : NumericalHyperparameter) : ℚ × ℚ :=
  let mn := hp.lower ^ (1 : ℕ)
  let mx := hp.upper ^ (1 : ℕ)
  if mx < hp.upper then (mn, hp.upper * 1) else (mn, mx)

/-- X_values_plot = np.linspace(min, max, 1000) in plot_numeric. -/
def xValuesPlot (hp : NumericalHyperparameter) : List ℚ :=
  linspace (plotBounds hp).1 (plotBounds hp).2 1000

/-- One plotted series: its legend label (the strategy name) and the
palette color chosen for it. -/
structure Curve where
  label : Name
  color : Char
deriving DecidableEq

/-- Symbolic record of one subplot: the series drawn on it, whether
legend() was called on it, and its set_xlim range if any. -/
structure Subplot where
  curves : List Curve
  hasLegend : Bool
  xlim : Option (ℚ × ℚ)
deriving DecidableEq

/-- Symbolic record of the figure plot_numeric renders: the density
subplot axes[0], the empirical-CDF subplot axes[1], whether the raw
prior points were overlaid, and whether the x-axis is log-scaled. -/
structure KdeFigure where
  top : Subplot
  bottom : Subplot
  rawPriorPoints : Bool
  logScaleX : Bool
deriving DecidableEq

/-- The per-strategy loop of plot_numeric starting at index i: each
strategy is looked up in lines with plain indexing, which raises
IndexError (none) when the index is out of range. -/
def strategyCurvesFrom (i : ℕ) : List (Name × List ℚ) → Option (List Curve)
  | [] => some []
  | nd :: rest =>
    (lineColors.get? i).bind (fun c =>
      (strategyCurvesFrom (i + 1) rest).map (fun cs => ⟨nd.1, c⟩ :: cs))

/-- The curves of the enumerate(data) loop in plot_numeric. -/
def strategyCurves (data : List (Name × List ℚ)) : Option (List Curve) :=
  strategyCurvesFrom 0 data

/-- Embeds plot_numeric: draw one pdf curve on axes[0] and one step
curve on axes[1] per strategy in mapping order, sharing label and
color; overlay raw points if the gaussian_kde key is present; call
legend on axes[1] only; set_xlim(min, max) on axes[0] only; log-scale
when the hyperparameter says so.  The external KDE fit and the pixel
output are outside the model; a failed color lookup aborts the call. -/
def plot_numeric (hp : NumericalHyperparameter)
    (data : List (Name × List ℚ)) : Option KdeFigure :=
  match strategyCurves data with
  | none => none
  | some cs =>
    some ⟨⟨cs, false, some (plotBounds hp)⟩,
          ⟨cs, true, none⟩,
          data.any (fun p => decide (p.1 = gaussianKdeName)),
          hp.log⟩

/-! ### The entry-point per-parameter loop -/

/-- The hyperparameter kinds the dispatch distinguishes via isinstance:
Numerical, Categorical, and the remaining kind (Constant), which no
branch handles. -/
inductive Hyperparameter where
  | numerical (nh : NumericalHyperparameter)
  | categorical (choices : List Name)
  | constant
deriving DecidableEq

/-- Embeds all(x == priors[0] for x in priors).  On an empty list the
generator yields nothing, so all() returns True and priors[0] is never
evaluated: the empty case is total, with no element access. -/
def allEqualFirst {α : Type} [DecidableEq α] : List α → Bool
  | [] => true
  | p :: rest => (p :: rest).all (fun x => decide (x = p))

/-- The data OrderedDict assembled for plot_numeric: the gaussian_kde
prior first, then one entry per result strategy, looking the parameter
up in that strategy's defaultdict (so a missing column reads as []).
The np.array float conversion is the identity on rationals. -/
def numericData (obtained : List (Name × (Name → List ℚ))) (pname : Name)
    (priors : List ℚ) : List (Name × List ℚ) :=
  (gaussianKdeName, priors) :: obtained.map (fun s => (s.1, s.2 pname))

/-- What one iteration of the per-parameter loop does: skip via
continue, call plot_numeric with assembled data, call plot_categorical
with the priors, or fall through with no matching branch. -/
inductive PlotAction where
  | skip
  | plotNumericAct (nh : NumericalHyperparameter) (data : List (Name × List ℚ))
  | plotCategoricalAct (priors : List ℚ)
  | noBranch
deriving DecidableEq

/-- Embeds one iteration of the per-parameter loop of the entry point:
continue when all prior values equal the first, else dispatch on the
hyperparameter kind. -/
def paramStep (obtained : List (Name × (Name → List ℚ))) (pname : Name)
    (hp : Hyperparameter) (priors : List ℚ) : PlotAction :=
  if allEqualFirst priors then .skip
  else
    match hp with
    | .numerical nh => .plotNumericAct nh (numericData obtained pname priors)
    | .categorical _ => .plotCategoricalAct priors
    | .constant => .noBranch

/-! ### The obtain_priors call of the entry point -/

/-- The command-line arguments of the script that the obtain_priors call
site can draw on (directory and fixed-parameter plumbing omitted). -/
structure Args where
  flow_id : ℤ
  study_id : Name
  classifier : Name
  bestN : ℤ
deriving DecidableEq

/-- The argument tuple handed to the external prior-estimation utility. -/
structure PriorsRequest where
  studyId : Name
  flowId : ℤ
  holdout : Option ℤ
  bestN : ℤ
deriving DecidableEq

/-- Embeds the call in the entry point: obtain_priors(cache_dir,
args.study_id, args.flow_id, hyperparameters, args.fixed_parameters,
holdout=None, bestN=10).  The bestN argument is the literal 10. -/
def mainPriorsRequest (args : Args) : PriorsRequest :=
  ⟨args.study_id, args.flow_id, none, 10⟩

/-! ### Concrete inputs for witnesses and counterexamples -/

/-- The numeric hyperparameter of the end-to-end scenario: n_estimators
with bounds [1, 100], linear scale. -/
def hpEx : NumericalHyperparameter := ⟨"n_estimators".toList, 1, 100, false⟩

/-- The strategy data of the end-to-end scenario: the prior samples and
one comparison strategy. -/
def dataEx : List (Name × List ℚ) :=
  [(gaussianKdeName, [15, 18, 22, 30]), ("random_search".toList, [10, 20, 30])]

/-- Four strategies, one more than the palette has colors. -/
def dataFour : List (Name × List ℚ) :=
  [(['a'], [1]), (['b'], [2]), (['c'], [3]), (['d'], [4])]

/-- One archived file whose only parameter attribute has canonical name
max_depth, so that any other parameter name has no column in it. -/
def fileEx : ArffFile ℚ :=
  ⟨["parameter_classifier__max_depth".toList], [[3], [5]]⟩

/-- The figure plot_numeric renders on the end-to-end scenario. -/
def figEx : KdeFigure :=
  ⟨⟨[⟨gaussianKdeName, 'r'⟩, ⟨"random_search".toList, 'b'⟩], false, some (1, 100)⟩,
   ⟨[⟨gaussianKdeName, 'r'⟩, ⟨"random_search".toList, 'b'⟩], true, none⟩,
   true, false⟩

/-! ## Theorems -/

theorem splitDunder_ne_nil (s : List Char) : splitDunder s ≠ [] := by
  cases s with
  | nil => simp [splitDunder]
  | cons c rest =>
    cases rest with
    | nil => simp [splitDunder]
    | cons c2 r2 =>
      simp only [splitDunder]
      by_cases h : c = '_' ∧ c2 = '_'
      · simp [h]
      · simp only [if_neg h]
        cases splitDunder (c2 :: r2) <;> simp

/-- If the separator does not occur in the string, the split is the whole
string in one piece. -/
theorem splitDunder_of_no_sep (s : List Char) (h : ¬ sepTok <:+: s) :
    splitDunder s = [s] := by
  induction s with
  | nil => rfl
  | cons c rest ih =>
    cases rest with
    | nil => rfl
    | cons c2 r2 =>
      have hsub : ¬ sepTok <:+: (c2 :: r2) := by
        intro hi
        exact h (List.infix_cons hi)
      by_cases hd : c = '_' ∧ c2 = '_'
      · exfalso
        apply h
        obtain ⟨rfl, rfl⟩ := hd
        exact ⟨[], r2, rfl⟩
      · simp only [splitDunder, if_neg hd]
        rw [ih hsub]

theorem canonicalName_of_no_sep (s : Name) (h : ¬ sepTok <:+: s) :
    canonicalName s = s := by
  unfold canonicalName
  rw [splitDunder_of_no_sep s h]
  rfl

theorem extendKey_same {α : Type} (m : Name → List α) (k : Name) (vs : List α) :
    extendKey m k vs k = m k ++ vs := by
  simp [extendKey]

theorem extendKey_other {α : Type} (m : Name → List α) (k q : Name)
    (vs : List α) (h : q ≠ k) : extendKey m k vs q = m q := by
  simp [extendKey, h]

theorem attrFold_eq {α : Type} (l : List (Nat × Name)) (dat : List (List α))
    (dflt : α) (m : Name → List α) (k : Name) :
    (l.foldl
      (fun acc p =>
        if paramPre.isPrefixOf p.2 then
          extendKey acc (canonicalName p.2)
            (dat.map (fun row => row.getD p.1 dflt))
        else acc) m) k
    = m k ++ (l.filterMap
        (fun p =>
          if paramPre.isPrefixOf p.2 ∧ canonicalName p.2 = k then
            some (dat.map (fun row => row.getD p.1 dflt))
          else none)).flatten := by
  induction l generalizing m with
  | nil => simp
  | cons p rest ih =>
    simp only [List.foldl_cons, List.filterMap_cons]
    by_cases h1 : paramPre.isPrefixOf p.2
    · by_cases h2 : canonicalName p.2 = k
      · rw [ih, if_pos h1, if_pos ⟨h1, h2⟩]
        subst h2
        rw [extendKey_same]
        simp [List.append_assoc]
      · rw [ih, if_pos h1]
        rw [if_neg (by simp [h2])]
        rw [extendKey_other _ _ _ _ (fun he => h2 he.symm)]
    · rw [ih, if_neg h1, if_neg (by simp [h1])]

theorem processFile_eq {α : Type} [Inhabited α] (f : ArffFile α)
    (m : Name → List α) (k : Name) :
    processFile f m k = m k ++ fileColumns f k := by
  unfold processFile fileColumns
  exact attrFold_eq _ _ _ m k

theorem filesFold_eq {α : Type} [Inhabited α] (files : List (ArffFile α))
    (m : Name → List α) (k : Name) :
    (files.foldl (fun m f => processFile f m) m) k
    = m k ++ (files.map (fun f => fileColumns f k)).flatten := by
  induction files generalizing m with
  | nil => simp
  | cons f rest ih =>
    simp only [List.foldl_cons, List.map_cons, List.flatten_cons]
    rw [ih, processFile_eq, List.append_assoc]

theorem obtain_sampled_parameters_eq {α : Type} [Inhabited α]
    (files : List (ArffFile α)) (k : Name) :
    obtain_sampled_parameters files k
      = (files.map (fun f => fileColumns f k)).flatten := by
  unfold obtain_sampled_parameters
  rw [filesFold_eq]
  simp

/-- C1: for every list of matched archive files, the mapping returned by
obtain_sampled_parameters holds, at each key k, exactly the
concatenation, in file order, of the columns of the attributes whose
name starts with "parameter_" and whose canonical name (the piece after
the last "__") is k, each column in row order; and when the glob
matched no files the mapping is empty at every key. -/
theorem claim_C1_obtain_sampled_parameters {α : Type} [Inhabited α]
    (files : List (ArffFile α)) (k : Name) :
    obtain_sampled_parameters files k
      = (files.map (fun f => fileColumns f k)).flatten ∧
    obtain_sampled_parameters ([] : List (ArffFile α)) k = [] :=
  ⟨obtain_sampled_parameters_eq files k, rfl⟩

/-- C2: a hyperparameter whose non-empty prior list has all elements
equal is skipped by the per-parameter loop: the iteration takes the
continue branch, so neither plot_numeric nor plot_categorical is
invoked and no plot is produced, silently. -/
theorem claim_C2_degenerate_skip (obtained : List (Name × (Name → List ℚ)))
    (pname : Name) (hp : Hyperparameter) (priors : List ℚ)
    (hne : priors ≠ []) (hall : ∀ x ∈ priors, ∀ y ∈ priors, x = y) :
    paramStep obtained pname hp priors = .skip := by
  cases priors with
  | nil => exact absurd rfl hne
  | cons p rest =>
    have hall2 : allEqualFirst (p :: rest) = true := by
      simp only [allEqualFirst, List.all_eq_true]
      intro x hx
      simpa using hall x hx p (List.mem_cons_self p rest)
    simp [paramStep, hall2]

/-- Witness for C2 at the degenerate prior list [3, 3, 3]. -/
theorem claim_C2_degenerate_skip_witness :
    (([3, 3, 3] : List ℚ) ≠ [] ∧
      ∀ x ∈ ([3, 3, 3] : List ℚ), ∀ y ∈ ([3, 3, 3] : List ℚ), x = y) ∧
    paramStep [] [] (.numerical hpEx) [3, 3, 3] = .skip :=
  ⟨⟨by decide, by decide⟩,
    claim_C2_degenerate_skip [] [] (.numerical hpEx) [3, 3, 3] (by decide) (by decide)⟩

/-- C8: an empty prior list is classified as degenerate and skipped: the
all-equal test evaluates to true on [] without any element access (the
generator in all() yields nothing, so priors[0] is never evaluated),
and the loop continues with no plot and no error. -/
theorem claim_C8_empty_priors_skip (obtained : List (Name × (Name → List ℚ)))
    (pname : Name) (hp : Hyperparameter) :
    allEqualFirst ([] : List ℚ) = true ∧
    paramStep obtained pname hp [] = .skip :=
  ⟨rfl, rfl⟩

/-- C5: with the best-N flag set to 20, the entry point still requests
the priors with bestN = 10: the call site passes the literal 10 instead
of args.bestN, contradicting the help text of the bestN flag. -/
theorem claim_C5_bestN_hardcoded :
    (mainPriorsRequest ⟨6970, "OpenML100".toList, "adaboost".toList, 20⟩).bestN = 10 ∧
    ¬ (mainPriorsRequest ⟨6970, "OpenML100".toList, "adaboost".toList, 20⟩).bestN = 20 :=
  ⟨rfl, by decide⟩

theorem fileColumns_eq_nil {α : Type} [Inhabited α] (f : ArffFile α) (k : Name)
    (h : ∀ a ∈ f.attributes, paramPre.isPrefixOf a = true → canonicalName a ≠ k) :
    fileColumns f k = [] := by
  unfold fileColumns
  rw [List.flatten_eq_nil_iff]
  intro col hcol
  rw [List.mem_filterMap] at hcol
  obtain ⟨p, hp, hcol⟩ := hcol
  by_cases hc : paramPre.isPrefixOf p.2 ∧ canonicalName p.2 = k
  · exfalso
    have hmem : p.2 ∈ f.attributes := by
      have h2 := List.mem_map_of_mem Prod.snd hp
      rwa [List.enum_map_snd] at h2
    exact h p.2 hmem hc.1 hc.2
  · rw [if_neg hc] at hcol
    exact absurd hcol (by simp)

/-- C9: when no attribute of any scanned file both starts with
"parameter_" and has canonical name pname, the defaultdict lookup at
pname yields the empty list rather than a missing-key error, and the
strategy entry assembled for plot_numeric in the entry point is exactly
that empty sample sequence. -/
theorem claim_C9_missing_column (files : List (ArffFile ℚ)) (pname : Name)
    (h : ∀ f ∈ files, ∀ a ∈ f.attributes,
      paramPre.isPrefixOf a = true → canonicalName a ≠ pname) :
    obtain_sampled_parameters files pname = [] ∧
    ∀ (obtained : List (Name × (Name → List ℚ))) (s : Name) (priors : List ℚ),
      (s, obtain_sampled_parameters files) ∈ obtained →
      (s, ([] : List ℚ)) ∈ numericData obtained pname priors := by
  have hmain : obtain_sampled_parameters files pname = [] := by
    rw [obtain_sampled_parameters_eq, List.flatten_eq_nil_iff]
    intro l hl
    rw [List.mem_map] at hl
    obtain ⟨f, hf, rfl⟩ := hl
    exact fileColumns_eq_nil f pname (h f hf)
  refine ⟨hmain, ?_⟩
  intro obtained s priors hmem
  unfold numericData
  apply List.mem_cons_of_mem
  have h3 : (s, obtain_sampled_parameters files pname)
      ∈ obtained.map (fun t => (t.1, t.2 pname)) :=
    List.mem_map_of_mem (fun t => (t.1, t.2 pname)) hmem
  rwa [hmain] at h3

/-- Witness for C9: a file whose single parameter column is max_depth,
looked up at learning_rate. -/
theorem claim_C9_missing_column_witness :
    (∀ f ∈ [fileEx], ∀ a ∈ f.attributes,
      paramPre.isPrefixOf a = true → canonicalName a ≠ "learning_rate".toList) ∧
    (obtain_sampled_parameters [fileEx] "learning_rate".toList = [] ∧
     ∀ (obtained : List (Name × (Name → List ℚ))) (s : Name) (priors : List ℚ),
       (s, obtain_sampled_parameters [fileEx]) ∈ obtained →
       (s, ([] : List ℚ)) ∈ numericData obtained "learning_rate".toList priors) :=
  ⟨by decide, claim_C9_missing_column [fileEx] _ (by decide)⟩

/-- C10: an attribute name that starts with "parameter_" but contains no
"__" separator is its own canonical name, so obtain_sampled_parameters
keys that attribute's column under the entire raw name: on a file
holding just that attribute, the mapping at the raw name is the column. -/
theorem claim_C10_no_sep_key (a : Name) (rows : List (List ℚ))
    (h1 : paramPre.isPrefixOf a = true) (h2 : ¬ sepTok <:+: a) :
    canonicalName a = a ∧
    obtain_sampled_parameters [⟨[a], rows⟩] a
      = rows.map (fun row => row.getD 0 default) := by
  have hc := canonicalName_of_no_sep a h2
  refine ⟨hc, ?_⟩
  rw [obtain_sampled_parameters_eq]
  show (fileColumns ⟨[a], rows⟩ a :: []).flatten = _
  unfold fileColumns
  show ((List.filterMap _ [(0, a)]).flatten :: []).flatten = _
  rw [List.filterMap_cons]
  rw [if_pos ⟨h1, hc⟩]
  simp

/-- Witness for C10 at the attribute parameter_fit. -/
theorem claim_C10_no_sep_key_witness :
    (paramPre.isPrefixOf "parameter_fit".toList = true ∧
      ¬ sepTok <:+: "parameter_fit".toList) ∧
    (canonicalName "parameter_fit".toList = "parameter_fit".toList ∧
     obtain_sampled_parameters [⟨["parameter_fit".toList], [[2], [7]]⟩]
        "parameter_fit".toList
       = ([[2], [7]] : List (List ℚ)).map (fun row => row.getD 0 default)) :=
  ⟨⟨by decide, by decide⟩,
    claim_C10_no_sep_key "parameter_fit".toList [[2], [7]] (by decide) (by decide)⟩

theorem strategyCurvesFrom_none_iff (data : List (Name × List ℚ)) (i : ℕ) :
    strategyCurvesFrom i data = none
      ↔ ∃ j, j < data.length ∧ lineColors.get? (i + j) = none := by
  induction data generalizing i with
  | nil => simp [strategyCurvesFrom]
  | cons nd rest ih =>
    constructor
    · intro hnone
      cases hcol : lineColors.get? i with
      | none => exact ⟨0, Nat.succ_pos _, by simpa using hcol⟩
      | some c =>
        rw [strategyCurvesFrom, hcol, Option.some_bind, Option.map_eq_none'] at hnone
        obtain ⟨j, hj, hjn⟩ := (ih (i + 1)).mp hnone
        refine ⟨j + 1, by simpa using Nat.succ_lt_succ hj, ?_⟩
        rw [show i + (j + 1) = i + 1 + j by omega]
        exact hjn
    · rintro ⟨j, hj, hjn⟩
      rw [strategyCurvesFrom]
      cases j with
      | zero =>
        rw [Nat.add_zero] at hjn
        rw [hjn]
        rfl
      | succ j2 =>
        cases hcol : lineColors.get? i with
        | none => rfl
        | some c =>
          rw [Option.some_bind, Option.map_eq_none']
          refine (ih (i + 1)).mpr ⟨j2, by simpa using Nat.lt_of_succ_lt_succ hj, ?_⟩
          rw [show i + 1 + j2 = i + (j2 + 1) by omega]
          exact hjn

theorem strategyCurvesFrom_eq_some (data : List (Name × List ℚ)) (i : ℕ)
    (h : i + data.length ≤ 3) :
    strategyCurvesFrom i data
      = some ((data.enumFrom i).map (fun p => ⟨p.2.1, lineColors.getD p.1 'r'⟩)) := by
  induction data generalizing i with
  | nil => rfl
  | cons nd rest ih =>
    have hi : i < lineColors.length := by
      simp only [List.length_cons] at h
      simp only [lineColors, List.length_cons, List.length_nil]
      omega
    have hcol : lineColors.get? i = some (lineColors.getD i 'r') := by
      rw [List.getD_eq_get? lineColors i 'r', List.get?_eq_get hi]
      rfl
    rw [strategyCurvesFrom, hcol, Option.some_bind]
    rw [ih (i + 1) (by simp only [List.length_cons] at h; omega)]
    rfl

/-- C3 (amended): the strategy overlays are drawn in mapping-iteration
order with the palette r, b, g assigned by position, and plot_numeric
fails with an out-of-bounds color lookup (IndexError, modelled as none)
exactly when the mapping holds more than 3 strategies; the colors are
not reused cyclically. -/
theorem claim_C3_palette (hp : NumericalHyperparameter)
    (data : List (Name × List ℚ)) :
    (plot_numeric hp data = none ↔ 3 < data.length) ∧
    (data.length ≤ 3 →
      strategyCurves data
        = some (data.enum.map (fun p => ⟨p.2.1, lineColors.getD p.1 'r'⟩))) := by
  constructor
  · have hplot : plot_numeric hp data = none ↔ strategyCurves data = none := by
      unfold plot_numeric
      cases strategyCurves data with
      | none => simp
      | some cs => simp
    rw [hplot]
    unfold strategyCurves
    rw [strategyCurvesFrom_none_iff]
    constructor
    · rintro ⟨j, hj, hjn⟩
      rw [Nat.zero_add] at hjn
      rw [List.get?_eq_none] at hjn
      simp only [lineColors, List.length_cons, List.length_nil] at hjn
      omega
    · intro h3
      refine ⟨3, by omega, ?_⟩
      rfl
  · intro h3
    unfold strategyCurves
    rw [strategyCurvesFrom_eq_some data 0 (by omega)]
    rfl

/-- Witness for C3 on the two-strategy end-to-end data. -/
theorem claim_C3_palette_witness :
    dataEx.length ≤ 3 ∧
    strategyCurves dataEx
      = some (dataEx.enum.map (fun p => ⟨p.2.1, lineColors.getD p.1 'r'⟩)) :=
  ⟨by decide, (claim_C3_palette hpEx dataEx).2 (by decide)⟩

/-- C3 counterexample: with four strategies the per-strategy color
lookup goes out of bounds, so the call fails (none, an IndexError)
instead of reusing the palette cyclically. -/
theorem claim_C3_palette_cex :
    plot_numeric hpEx dataFour = none ∧ strategyCurves dataFour = none :=
  ⟨rfl, rfl⟩

/-- C4 (amended): whenever plot_numeric renders a figure, legend() is
called on the bottom (empirical-CDF) subplot only; the top (density)
subplot gets no legend. -/
theorem claim_C4_legend (hp : NumericalHyperparameter)
    (data : List (Name × List ℚ)) (fig : KdeFigure)
    (h : plot_numeric hp data = some fig) :
    fig.bottom.hasLegend = true ∧ fig.top.hasLegend = false := by
  unfold plot_numeric at h
  cases hsc : strategyCurves data with
  | none =>
    rw [hsc] at h
    exact absurd h (by simp)
  | some cs =>
    rw [hsc] at h
    have h2 := Option.some.inj h
    rw [← h2]
    exact ⟨rfl, rfl⟩

/-- Witness for C4 on the end-to-end scenario figure. -/
theorem claim_C4_legend_witness :
    plot_numeric hpEx dataEx = some figEx ∧
    figEx.bottom.hasLegend = true ∧ figEx.top.hasLegend = false :=
  ⟨by decide, claim_C4_legend hpEx dataEx figEx (by decide)⟩

/-- C4 counterexample: on the end-to-end scenario the rendered figure
has no legend on the density subplot, so the legend is attached to one
subplot, not both. -/
theorem claim_C4_legend_cex :
    (plot_numeric hpEx dataEx).map (fun f => f.top.hasLegend) = some false ∧
    (plot_numeric hpEx dataEx).map (fun f => f.bottom.hasLegend) = some true :=
  ⟨by decide, by decide⟩

theorem mem_firstSeen {α : Type} [DecidableEq α] (a : α) (l : List α) :
    a ∈ firstSeen l ↔ a ∈ l := by
  induction l with
  | nil => simp [firstSeen]
  | cons x xs ih =>
    simp only [firstSeen, List.mem_cons, List.mem_filter]
    constructor
    · rintro (rfl | ⟨h1, _⟩)
      · exact Or.inl rfl
      · exact Or.inr (ih.mp h1)
    · rintro (rfl | h)
      · exact Or.inl rfl
      · by_cases hax : a = x
        · exact Or.inl hax
        · exact Or.inr ⟨ih.mpr h, by simpa using hax⟩

theorem nodup_firstSeen {α : Type} [DecidableEq α] (l : List α) :
    (firstSeen l).Nodup := by
  induction l with
  | nil => exact List.nodup_nil
  | cons x xs ih =>
    simp only [firstSeen]
    rw [List.nodup_cons]
    refine ⟨?_, List.Nodup.filter _ ih⟩
    intro hx
    rw [List.mem_filter] at hx
    simp at hx

theorem firstSeen_append_of_not_mem {α : Type} [DecidableEq α] (l : List α)
    (v : α) (h : v ∉ l) :
    firstSeen (l ++ [v]) = firstSeen l ++ [v] := by
  induction l with
  | nil => rfl
  | cons x xs ih =>
    have hvx : ¬ v = x := fun he => h (by rw [he]; exact List.mem_cons_self x xs)
    have hvxs : v ∉ xs := fun hm => h (List.mem_cons_of_mem x hm)
    rw [List.cons_append]
    simp only [firstSeen]
    rw [ih hvxs, List.filter_append]
    simp [hvx]

theorem firstSeen_append_of_mem {α : Type} [DecidableEq α] (l : List α)
    (v : α) (h : v ∈ l) :
    firstSeen (l ++ [v]) = firstSeen l := by
  induction l with
  | nil => simp at h
  | cons x xs ih =>
    rw [List.cons_append]
    simp only [firstSeen]
    rcases List.mem_cons.mp h with rfl | hmem
    · by_cases hv2 : v ∈ xs
      · rw [ih hv2]
      · rw [firstSeen_append_of_not_mem xs v hv2, List.filter_append]
        simp
    · rw [ih hmem]

theorem freqStep_eq {α : Type} [DecidableEq α] (n : ℕ) (pre : List α) (v : α) :
    freqStep n ((firstSeen pre).map
        (fun a => (a, (pre.count a : ℚ) / (n : ℚ)))) v
      = (firstSeen (pre ++ [v])).map
          (fun a => (a, ((pre ++ [v]).count a : ℚ) / (n : ℚ))) := by
  by_cases hv : v ∈ pre
  · have hany : ((firstSeen pre).map
        (fun a => (a, (pre.count a : ℚ) / (n : ℚ)))).any
          (fun p => decide (p.1 = v)) = true := by
      rw [List.any_eq_true]
      exact ⟨(v, (pre.count v : ℚ) / (n : ℚ)),
        List.mem_map_of_mem _ ((mem_firstSeen v pre).mpr hv), by simp⟩
    unfold freqStep
    rw [hany, if_pos rfl]
    rw [firstSeen_append_of_mem pre v hv, List.map_map]
    apply List.map_congr_left
    intro a ha
    by_cases hav : a = v
    · subst hav
      have hcnt : (pre ++ [a]).count a = pre.count a + 1 := by
        rw [List.count_append a pre [a]]
        simp
      simp [hcnt, Nat.cast_add, Nat.cast_one, add_div]
    · have hne2 : ¬ v = a := fun he => hav he.symm
      have hcnt : (pre ++ [v]).count a = pre.count a := by
        rw [List.count_append a pre [v], List.count_singleton a v]
        simp [hne2]
      simp [hav, hcnt]
  · have hany : ((firstSeen pre).map
        (fun a => (a, (pre.count a : ℚ) / (n : ℚ)))).any
          (fun p => decide (p.1 = v)) = false := by
      rw [List.any_eq_false]
      intro p hp
      rw [List.mem_map] at hp
      obtain ⟨a, ha, rfl⟩ := hp
      simp only [decide_eq_true_eq]
      intro he
      exact hv (by rw [← he]; exact (mem_firstSeen a pre).mp ha)
    unfold freqStep
    rw [hany, if_neg (by simp)]
    rw [firstSeen_append_of_not_mem pre v hv, List.map_append]
    congr 1
    · apply List.map_congr_left
      intro a ha
      have hne2 : ¬ v = a :=
        fun he => hv (by rw [he]; exact (mem_firstSeen a pre).mp ha)
      have hcnt : (pre ++ [v]).count a = pre.count a := by
        rw [List.count_append a pre [v], List.count_singleton a v]
        simp [hne2]
      rw [hcnt]
    · have hcnt0 : pre.count v = 0 := List.count_eq_zero.mpr hv
      simp [List.count_append, hcnt0, one_div]

theorem freqFold_eq {α : Type} [DecidableEq α] (n : ℕ) (l pre : List α) :
    l.foldl (freqStep n)
        ((firstSeen pre).map (fun a => (a, (pre.count a : ℚ) / (n : ℚ))))
      = (firstSeen (pre ++ l)).map
          (fun a => (a, ((pre ++ l).count a : ℚ) / (n : ℚ))) := by
  induction l generalizing pre with
  | nil =>
    rw [List.append_nil]
    rfl
  | cons v rest ih =>
    rw [List.foldl_cons, freqStep_eq n pre v, ih (pre ++ [v])]
    rw [List.append_assoc]
    rfl

theorem freqMap_eq_freqSpec {α : Type} [DecidableEq α] (X : List α) :
    freqMap X = freqSpec X := by
  unfold freqMap freqSpec
  have h := freqFold_eq X.length X []
  simpa [firstSeen] using h

theorem freqSpec_sum {α : Type} [DecidableEq α] (X : List α) (h : X ≠ []) :
    ((freqSpec X).map (fun p => p.2)).sum = 1 := by
  unfold freqSpec
  rw [List.map_map]
  have hlen : X.length ≠ 0 := fun h0 => h (List.length_eq_zero.mp h0)
  have hne : (X.length : ℚ) ≠ 0 := Nat.cast_ne_zero.mpr hlen
  have hperm : List.Perm (firstSeen X) X.dedup := by
    rw [List.perm_ext_iff_of_nodup (nodup_firstSeen X) (List.nodup_dedup X)]
    intro a
    rw [mem_firstSeen, List.mem_dedup]
  have hcomp : ((fun p : α × ℚ => p.2)
        ∘ fun a => (a, (X.count a : ℚ) / (X.length : ℚ)))
      = fun a => (X.count a : ℚ) / (X.length : ℚ) := rfl
  rw [hcomp, (hperm.map (fun a => (X.count a : ℚ) / (X.length : ℚ))).sum_eq]
  have hdiv : X.dedup.map (fun a => (X.count a : ℚ) / (X.length : ℚ))
      = X.dedup.map (fun a => (X.count a : ℚ) * ((X.length : ℚ))⁻¹) :=
    List.map_congr_left (fun a _ => by rw [div_eq_mul_inv])
  rw [hdiv, List.sum_map_mul_right]
  have hcast : (((X.dedup.map (fun a => X.count a)).sum : ℕ) : ℚ)
      = (X.dedup.map (fun a => ((X.count a : ℕ) : ℚ))).sum := by
    rw [Nat.cast_list_sum, List.map_map]
    rfl
  rw [← hcast, List.sum_map_count_dedup_eq_length]
  exact mul_inv_cancel₀ hne

/-- C6: on any non-empty input the frequency mapping plot_categorical
builds (before resampling) has the distinct values of X as keys in
first-seen order, maps each key to its occurrence count divided by
len(X), and its values sum to 1. -/
theorem claim_C6_frequency {α : Type} [DecidableEq α] (X : List α)
    (h : X ≠ []) :
    freqMap X = freqSpec X ∧ ((freqMap X).map (fun p => p.2)).sum = 1 := by
  refine ⟨freqMap_eq_freqSpec X, ?_⟩
  rw [freqMap_eq_freqSpec X]
  exact freqSpec_sum X h

/-- Witness for C6 at [a, a, b]: the mapping is a to 2/3 and b to 1/3. -/
theorem claim_C6_frequency_witness :
    (([0, 0, 1] : List ℚ) ≠ []) ∧
    (freqMap ([0, 0, 1] : List ℚ) = freqSpec [0, 0, 1] ∧
     ((freqMap ([0, 0, 1] : List ℚ)).map (fun p => p.2)).sum = 1) ∧
    freqMap ([0, 0, 1] : List ℚ) = [(0, 2 / 3), (1, 1 / 3)] :=
  ⟨by decide, claim_C6_frequency [0, 0, 1] (by decide),
    by norm_num [freqMap, freqStep]⟩

theorem xValuesPlot_getD (hp : NumericalHyperparameter) (i : ℕ)
    (h : i < 1000) :
    (xValuesPlot hp).getD i 0
      = (plotBounds hp).1
        + ((plotBounds hp).2 - (plotBounds hp).1) * (i : ℚ) / 999 := by
  unfold xValuesPlot linspace
  simp only [List.getD_eq_getElem?_getD, List.getElem?_map,
    List.getElem?_range h, Option.map_some', Option.getD_some]
  norm_num

/-- C7: with factor 1.0, the final upper bound plot_numeric uses equals
the max of the computed bound upper^1 and the declared upper (so it is
never below the declared upper bound), and X_values_plot holds exactly
1000 evenly spaced points running from the lower bound to that upper
bound. -/
theorem claim_C7_plot_range (hp : NumericalHyperparameter) (i : ℕ)
    (hi : i + 1 < 1000) :
    (plotBounds hp).2 = max (hp.upper ^ (1 : ℕ)) hp.upper ∧
    hp.upper ≤ (plotBounds hp).2 ∧
    (xValuesPlot hp).length = 1000 ∧
    (xValuesPlot hp).getD 0 0 = (plotBounds hp).1 ∧
    (xValuesPlot hp).getD 999 0 = (plotBounds hp).2 ∧
    (xValuesPlot hp).getD (i + 1) 0 - (xValuesPlot hp).getD i 0
      = ((plotBounds hp).2 - (plotBounds hp).1) / 999 := by
  have hb2 : (plotBounds hp).2 = max (hp.upper ^ (1 : ℕ)) hp.upper := by
    simp [plotBounds, pow_one]
  refine ⟨hb2, ?_, ?_, ?_, ?_, ?_⟩
  · rw [hb2]
    exact le_max_right _ _
  · simp [xValuesPlot, linspace]
  · rw [xValuesPlot_getD hp 0 (by norm_num)]
    norm_num
  · rw [xValuesPlot_getD hp 999 (by norm_num)]
    have h999 : ((999 : ℕ) : ℚ) = 999 := by norm_num
    rw [h999, mul_div_assoc, div_self (by norm_num : (999 : ℚ) ≠ 0), mul_one]
    ring
  · rw [xValuesPlot_getD hp (i + 1) hi, xValuesPlot_getD hp i (by omega)]
    push_cast
    field_simp
    ring

/-- Witness for C7 at the bounds [1, 100] of the end-to-end scenario. -/
theorem claim_C7_plot_range_witness :
    0 + 1 < 1000 ∧
    ((plotBounds hpEx).2 = max (hpEx.upper ^ (1 : ℕ)) hpEx.upper ∧
     hpEx.upper ≤ (plotBounds hpEx).2 ∧
     (xValuesPlot hpEx).length = 1000 ∧
     (xValuesPlot hpEx).getD 0 0 = (plotBounds hpEx).1 ∧
     (xValuesPlot hpEx).getD 999 0 = (plotBounds hpEx).2 ∧
     (xValuesPlot hpEx).getD (0 + 1) 0 - (xValuesPlot hpEx).getD 0 0
       = ((plotBounds hpEx).2 - (plotBounds hpEx).1) / 999) :=
  ⟨by norm_num, claim_C7_plot_range hpEx 0 (by norm_num)⟩
